import Mathlib

/-!
# Disk-scheduling simulator: verification of the specification

A shallow embedding of the disk-scheduling simulator. The repository's
files hold the browser-side layer (`src/script.js`): input validation and
the submission of simulate/compare requests. The scheduling engine itself
(the ten policies, the seek metrics and the comparison) lives in a backend
file that is not part of the repository's sources, so those components are
modelled here directly from the specification's words.

Track numbers, head positions and disk sizes are integers; the browser
inputs are character strings parsed with JavaScript `parseInt`.
-/

namespace DiskSched

/-! ## The browser layer, from `src/script.js` -/

/-- Whitespace as JavaScript's `parseInt`/`trim` skip it. -/
def jsIsSpace (c : Char) : Bool :=
  c = ' ' || c = '\t' || c = '\n' || c = '\r'

/-- `String.prototype.split(",")`: cut the character list at every comma;
an empty input yields the single empty token, as in JavaScript. -/
def splitCommaAux : List Char → List Char → List (List Char)
  | [], acc => [acc.reverse]
  | c :: cs, acc =>
    if c = ',' then acc.reverse :: splitCommaAux cs []
    else splitCommaAux cs (c :: acc)

def splitComma (s : List Char) : List (List Char) :=
  splitCommaAux s []

/-- `String.prototype.trim()`: drop whitespace at both ends. -/
def trimChars (s : List Char) : List Char :=
  ((s.dropWhile jsIsSpace).reverse.dropWhile jsIsSpace).reverse

/-- Value of a run of decimal digits. -/
def digitsVal (ds : List Char) : Nat :=
  ds.foldl (fun a c => a * 10 + (c.toNat - 48)) 0

/-- JavaScript `parseInt` on a decimal numeral: skip leading whitespace,
read an optional sign and then the longest run of digits, ignoring
whatever follows (so `"2.5"` parses to `2`); `none` models `NaN`. -/
def parseIntJS (s : List Char) : Option Int :=
  match s.dropWhile jsIsSpace with
  | '-' :: rest =>
    let ds := rest.takeWhile Char.isDigit
    if ds.isEmpty then none else some (-(digitsVal ds : Int))
  | '+' :: rest =>
    let ds := rest.takeWhile Char.isDigit
    if ds.isEmpty then none else some (digitsVal ds : Int)
  | t =>
    let ds := t.takeWhile Char.isDigit
    if ds.isEmpty then none else some (digitsVal ds : Int)

/-- The outcome of `validateInputs`: `ok` models `return true`, `err m`
models `alert(m); return false`. -/
inductive ValidationResult where
  | ok : ValidationResult
  | err : String → ValidationResult
deriving DecidableEq

/-- One parsed request fails the check `isNaN(r) || r < 0 || r >= diskSize`. -/
def badRequest (d : Int) (r : Option Int) : Bool :=
  match r with
  | none => true
  | some v => v < 0 || d ≤ v

/-- `validateInputs` from `src/script.js`: parse the three fields, then run
the three checks in order, returning at the first failure. -/
def validateInputs (diskStr headStr queueStr : List Char) : ValidationResult :=
  match parseIntJS diskStr with
  | none => .err "Invalid disk size"
  | some d =>
    if d ≤ 0 then .err "Invalid disk size"
    else
      match parseIntJS headStr with
      | none => .err "Invalid head position"
      | some h =>
        if h < 0 || d ≤ h then .err "Invalid head position"
        else
          let requests := (splitComma queueStr).map (fun t => parseIntJS (trimChars t))
          if requests.any (badRequest d) then .err "Invalid request values"
          else .ok

/-- `true` exactly when `validateInputs` returned `true` in the JavaScript. -/
def isValid : ValidationResult → Bool
  | .ok => true
  | .err _ => false

/-- `runSimulation` from `src/script.js` posts to the backend if and only if
`validateInputs` passed; the chosen algorithm name and the direction field
play no part in the decision. -/
def runSimulationSubmits (diskStr headStr queueStr : List Char)
    (alg : List Char) (dir : Option (List Char)) : Bool :=
  isValid (validateInputs diskStr headStr queueStr)

/-- The ten policy identifiers offered by the page (`algorithmInfo` keys). -/
def supportedPolicies : List (List Char) :=
  ["FCFS".toList, "SSTF".toList, "SCAN".toList, "CSCAN".toList,
   "LOOK".toList, "CLOOK".toList, "RSS".toList, "LIFO".toList,
   "NSTEP".toList, "FSCAN".toList]

/-- The parsed field is an integer in `[0, d)`. -/
def intOk (r : Option Int) (d : Int) : Prop :=
  ∃ v, r = some v ∧ 0 ≤ v ∧ v < d

/-- The specification's validity contract (§4.1), stated over the parsed
fields: positive disk size, head in `[0, size)`, every request in
`[0, size)`. -/
def validSpec (diskStr headStr queueStr : List Char) : Prop :=
  ∃ d, parseIntJS diskStr = some d ∧ 0 < d ∧
    intOk (parseIntJS headStr) d ∧
    ∀ t ∈ splitComma queueStr, intOk (parseIntJS (trimChars t)) d

/-- The disk-size constraint holds. -/
def diskOkSpec (diskStr : List Char) : Prop :=
  ∃ d, parseIntJS diskStr = some d ∧ 0 < d

/-- The head-position constraint holds (relative to the parsed disk size). -/
def headOkSpec (diskStr headStr : List Char) : Prop :=
  ∀ d, parseIntJS diskStr = some d → intOk (parseIntJS headStr) d

/-- Every request token satisfies the request constraint (relative to the
parsed disk size). -/
def reqOkSpec (diskStr queueStr : List Char) : Prop :=
  ∀ d, parseIntJS diskStr = some d →
    ∀ t ∈ splitComma queueStr, intOk (parseIntJS (trimChars t)) d


/-! ## The scheduling engine, modelled from the specification

The engine itself (`backend/app.py` in the project layout) is not among
the repository's source files; the definitions below are therefore
modelled from the specification's §3-§4. -/

/-- Modelled from the spec: the `Direction` enum required by the
SCAN-family policies. -/
inductive Direction where
  | Increasing : Direction
  | Decreasing : Direction
deriving DecidableEq

/-- Absolute distance between two tracks. -/
def dist (a b : Nat) : Nat := max a b - min a b

/-- Ascending sort of a request list. -/
def sortAsc (l : List Nat) : List Nat := l.insertionSort (· ≤ ·)

/-- Descending sort of a request list. -/
def sortDesc (l : List Nat) : List Nat := l.insertionSort (· ≥ ·)

/-- Modelled from the spec: FCFS services requests in the exact order
they were enqueued. -/
def fcfs (q : List Nat) : List Nat := q

/-- Modelled from the spec: LIFO services the most recently enqueued
request first. -/
def lifo (q : List Nat) : List Nat := q.reverse

/-- The SSTF candidate among `x :: xs` seen from `head`: least distance,
ties resolved to the lower track number. -/
def sstfPick (head x : Nat) (xs : List Nat) : Nat :=
  xs.foldl (fun best r =>
    if dist r head < dist best head ∨ (dist r head = dist best head ∧ r < best)
    then r else best) x

/-- Modelled from the spec: the SSTF greedy loop; the fuel argument is the
queue length, which bounds the number of picks. -/
def sstfAux : Nat → Nat → List Nat → List Nat
  | 0, _, _ => []
  | _ + 1, _, [] => []
  | n + 1, head, x :: xs =>
    let c := sstfPick head x xs
    c :: sstfAux n c ((x :: xs).erase c)

/-- Modelled from the spec: SSTF repeatedly services the remaining request
closest to the current position. -/
def sstf (head : Nat) (q : List Nat) : List Nat := sstfAux q.length head q

/-- Modelled from the spec: SCAN sweeps from the head in the given
direction to the disk boundary, then reverses over the remaining side. -/
def scan (head : Nat) (dir : Direction) (q : List Nat) : List Nat :=
  match dir with
  | .Increasing =>
    sortAsc (q.filter fun r => decide (head ≤ r))
      ++ sortDesc (q.filter fun r => decide (r < head))
  | .Decreasing =>
    sortDesc (q.filter fun r => decide (r ≤ head))
      ++ sortAsc (q.filter fun r => decide (head < r))

/-- Modelled from the spec: C-SCAN sweeps one way, jumps back to the
opposite boundary and continues in the same direction. -/
def cscan (head : Nat) (dir : Direction) (q : List Nat) : List Nat :=
  match dir with
  | .Increasing =>
    sortAsc (q.filter fun r => decide (head ≤ r))
      ++ sortAsc (q.filter fun r => decide (r < head))
  | .Decreasing =>
    sortDesc (q.filter fun r => decide (r ≤ head))
      ++ sortDesc (q.filter fun r => decide (head < r))

/-- Modelled from the spec: LOOK reverses at the last pending request
instead of the physical boundary, so its service order coincides with
SCAN's (the boundary is a virtual stop, never serviced). -/
def look (head : Nat) (dir : Direction) (q : List Nat) : List Nat :=
  scan head dir q

/-- Modelled from the spec: C-LOOK wraps to the extreme pending request
instead of the boundary, so its service order coincides with C-SCAN's. -/
def clook (head : Nat) (dir : Direction) (q : List Nat) : List Nat :=
  cscan head dir q

/-- A linear congruential step: the injectable seeded generator the spec
requires for RSS. -/
def lcg (s : Nat) : Nat := (1103515245 * s + 12345) % 2147483648

/-- Remove the element at index `i`. -/
def removeAt (i : Nat) (q : List Nat) : List Nat := q.take i ++ q.drop (i + 1)

/-- Modelled from the spec: RSS draws the next request from the seeded
generator; the fuel argument is the queue length. -/
def rssAux : Nat → Nat → List Nat → List Nat
  | 0, _, _ => []
  | _ + 1, _, [] => []
  | n + 1, seed, q =>
    let i := seed % q.length
    q.getD i 0 :: rssAux n (lcg seed) (removeAt i q)

/-- Modelled from the spec: RSS services requests in the order produced by
the injected seeded random source, so runs are reproducible. -/
def rss (seed : Nat) (q : List Nat) : List Nat := rssAux q.length seed q

/-- Modelled from the spec: N-step-SCAN slices the queue into batches of
`n` in arrival order and SCANs each batch, carrying the head position
forward; the fuel argument is the queue length. -/
def nstepAux : Nat → Nat → Nat → Direction → List Nat → List Nat
  | 0, _, _, _, _ => []
  | _ + 1, _, _, _, [] => []
  | fuel + 1, n, head, dir, q =>
    let batch := scan head dir (q.take n)
    batch ++ nstepAux fuel n (batch.getLast?.getD head) dir (q.drop n)

/-- Modelled from the spec: N-step-SCAN with batch size `n`. -/
def nstep (n head : Nat) (dir : Direction) (q : List Nat) : List Nat :=
  nstepAux q.length n head dir q

/-- Modelled from the spec: F-SCAN freezes the known queue into an old and
a new half by arrival order and SCANs the old half completely before the
new one. -/
def fscan (head : Nat) (dir : Direction) (q : List Nat) : List Nat :=
  let old := q.take ((q.length + 1) / 2)
  let s1 := scan head dir old
  s1 ++ scan (s1.getLast?.getD head) dir (q.drop ((q.length + 1) / 2))

/-- The ten supported policies. -/
inductive Policy where
  | FCFS : Policy
  | SSTF : Policy
  | SCAN : Policy
  | CSCAN : Policy
  | LOOK : Policy
  | CLOOK : Policy
  | RSS : Policy
  | LIFO : Policy
  | NSTEP : Policy
  | FSCAN : Policy
deriving DecidableEq

/-- Modelled from the spec: the single resolution point dispatching a
policy to its strategy (§9). `seed` feeds RSS and `batchSize` feeds
N-step-SCAN; the other policies ignore them. -/
def runPolicy (p : Policy) (head : Nat) (dir : Direction) (seed batchSize : Nat)
    (q : List Nat) : List Nat :=
  match p with
  | .FCFS => fcfs q
  | .SSTF => sstf head q
  | .SCAN => scan head dir q
  | .CSCAN => cscan head dir q
  | .LOOK => look head dir q
  | .CLOOK => clook head dir q
  | .RSS => rss seed q
  | .LIFO => lifo q
  | .NSTEP => nstep batchSize head dir q
  | .FSCAN => fscan head dir q

/-- Modelled from the spec: the Seek Simulator folds over
`[headPosition] ++ ServiceSequence` pairwise, accumulating the distance of
every seek step. -/
def totalSeekTime (head : Nat) (seq : List Nat) : Nat :=
  (seq.foldl (fun acc t => (acc.1 + dist acc.2 t, t)) (0, head)).1

/-- The SeekStep trace: consecutive pairs of `[head] ++ seq`. -/
def seekSteps (head : Nat) (seq : List Nat) : List (Nat × Nat) :=
  (head :: seq).zip seq

/-- Modelled from the spec: `averageSeekTime = totalSeekTime / count`,
`0` for the empty queue. -/
def averageSeekTime (head : Nat) (seq : List Nat) : ℚ :=
  if seq.length = 0 then 0
  else (totalSeekTime head seq : ℚ) / (seq.length : ℚ)

/-- Modelled from the spec: `throughput = count / totalSeekTime`, defined
as `0` when `totalSeekTime = 0`. -/
def throughput (head : Nat) (seq : List Nat) : ℚ :=
  if totalSeekTime head seq = 0 then 0
  else (seq.length : ℚ) / (totalSeekTime head seq : ℚ)

/-- The fixed declared ordering of the ten policies (§3: first-declared
wins ties). -/
def policyOrder : List Policy :=
  [.FCFS, .SSTF, .SCAN, .CSCAN, .LOOK, .CLOOK, .RSS, .LIFO, .NSTEP, .FSCAN]

/-- Modelled from the spec: the Comparison Engine evaluates every policy
on identical inputs, keeping each policy's total seek time. -/
def comparison (head : Nat) (dir : Direction) (seed batchSize : Nat)
    (q : List Nat) : List (Policy × Nat) :=
  policyOrder.map fun p =>
    (p, totalSeekTime head (runPolicy p head dir seed batchSize q))

/-- Keep the incumbent unless a strictly better total appears later, so
the first-declared of the minimal entries wins. -/
def selectBest : Policy × Nat → List (Policy × Nat) → Policy × Nat
  | b, [] => b
  | b, e :: rest => selectBest (if e.2 < b.2 then e else b) rest

/-- Modelled from the spec: the winning entry of a comparison run. -/
def bestEntry (head : Nat) (dir : Direction) (seed batchSize : Nat)
    (q : List Nat) : Policy × Nat :=
  match comparison head dir seed batchSize q with
  | [] => (.FCFS, 0)
  | e :: rest => selectBest e rest

/-- Modelled from the spec: `bestPolicy`, the name of the winning entry. -/
def bestPolicy (head : Nat) (dir : Direction) (seed batchSize : Nat)
    (q : List Nat) : Policy :=
  (bestEntry head dir seed batchSize q).1


/-! ## Permutation invariant (C1) -/

theorem sortAsc_perm (l : List Nat) : List.Perm (sortAsc l) l :=
  List.perm_insertionSort _ l

theorem sortDesc_perm (l : List Nat) : List.Perm (sortDesc l) l :=
  List.perm_insertionSort _ l

theorem filter_not_filter_perm (p : Nat → Bool) (l : List Nat) :
    List.Perm (l.filter p ++ l.filter (fun x => !(p x))) l := by
  induction l with
  | nil => simp
  | cons a l ih =>
    by_cases h : p a = true
    · simp only [List.filter_cons, h, Bool.not_true, if_true, if_false,
        cond_true, cond_false]
      simpa using ih.cons a
    · rw [Bool.not_eq_true] at h
      simp only [List.filter_cons, h, Bool.not_false, cond_true, cond_false]
      exact List.perm_middle.trans (ih.cons a)

theorem filter_split_le (head : Nat) (q : List Nat) :
    List.Perm ((q.filter fun r => decide (head ≤ r))
      ++ (q.filter fun r => decide (r < head))) q := by
  have he : (q.filter fun r => decide (r < head))
      = q.filter fun r => !(decide (head ≤ r)) := by
    apply List.filter_congr
    intro x _
    rw [← decide_not, decide_eq_decide]
    omega
  rw [he]
  exact filter_not_filter_perm _ q

theorem filter_split_ge (head : Nat) (q : List Nat) :
    List.Perm ((q.filter fun r => decide (r ≤ head))
      ++ (q.filter fun r => decide (head < r))) q := by
  have he : (q.filter fun r => decide (head < r))
      = q.filter fun r => !(decide (r ≤ head)) := by
    apply List.filter_congr
    intro x _
    rw [← decide_not, decide_eq_decide]
    omega
  rw [he]
  exact filter_not_filter_perm _ q

theorem scan_perm (head : Nat) (dir : Direction) (q : List Nat) :
    List.Perm (scan head dir q) q := by
  cases dir with
  | Increasing =>
    exact ((sortAsc_perm _).append (sortDesc_perm _)).trans (filter_split_le head q)
  | Decreasing =>
    exact ((sortDesc_perm _).append (sortAsc_perm _)).trans (filter_split_ge head q)

theorem cscan_perm (head : Nat) (dir : Direction) (q : List Nat) :
    List.Perm (cscan head dir q) q := by
  cases dir with
  | Increasing =>
    exact ((sortAsc_perm _).append (sortAsc_perm _)).trans (filter_split_le head q)
  | Decreasing =>
    exact ((sortDesc_perm _).append (sortDesc_perm _)).trans (filter_split_ge head q)

theorem sstfPick_mem (head x : Nat) (xs : List Nat) : sstfPick head x xs ∈ x :: xs := by
  induction xs generalizing x with
  | nil => simp [sstfPick]
  | cons a xs ih =>
    have hunfold : sstfPick head x (a :: xs)
        = sstfPick head
            (if dist a head < dist x head ∨ (dist a head = dist x head ∧ a < x)
             then a else x) xs := rfl
    rw [hunfold]
    by_cases h : dist a head < dist x head ∨ (dist a head = dist x head ∧ a < x)
    · rw [if_pos h]
      rcases List.mem_cons.mp (ih a) with h1 | h1
      · rw [h1]; simp
      · simp [List.mem_cons_of_mem, h1]
    · rw [if_neg h]
      rcases List.mem_cons.mp (ih x) with h1 | h1
      · rw [h1]; simp
      · simp [List.mem_cons_of_mem, h1]

theorem sstfAux_perm : ∀ (fuel head : Nat) (q : List Nat), q.length ≤ fuel →
    List.Perm (sstfAux fuel head q) q := by
  intro fuel
  induction fuel with
  | zero =>
    intro head q hq
    have : q = [] := List.length_eq_zero.mp (Nat.le_zero.mp hq)
    rw [this]
    exact List.Perm.refl _
  | succ n ih =>
    intro head q hq
    match q with
    | [] => exact List.Perm.refl _
    | x :: xs =>
      have hmem := sstfPick_mem head x xs
      have hlen : ((x :: xs).erase (sstfPick head x xs)).length ≤ n := by
        rw [List.length_erase_of_mem hmem]
        simp only [List.length_cons] at hq ⊢
        omega
      have hrec := ih (sstfPick head x xs) _ hlen
      have hstep : sstfAux (n + 1) head (x :: xs)
          = sstfPick head x xs
            :: sstfAux n (sstfPick head x xs) ((x :: xs).erase (sstfPick head x xs)) := rfl
      rw [hstep]
      exact (hrec.cons _).trans (List.perm_cons_erase hmem).symm

theorem removeAt_perm (i : Nat) (q : List Nat) (h : i < q.length) :
    List.Perm q (q.getD i 0 :: removeAt i q) := by
  unfold removeAt
  rw [List.getD_eq_getElem q 0 h]
  conv_lhs => rw [← List.take_append_drop i q]
  rw [List.drop_eq_getElem_cons h]
  exact List.perm_middle

theorem removeAt_length (i : Nat) (q : List Nat) (h : i < q.length) :
    (removeAt i q).length = q.length - 1 := by
  unfold removeAt
  rw [List.length_append, List.length_take, List.length_drop]
  omega

theorem rssAux_perm : ∀ (fuel seed : Nat) (q : List Nat), q.length ≤ fuel →
    List.Perm (rssAux fuel seed q) q := by
  intro fuel
  induction fuel with
  | zero =>
    intro seed q hq
    have : q = [] := List.length_eq_zero.mp (Nat.le_zero.mp hq)
    rw [this]
    exact List.Perm.refl _
  | succ n ih =>
    intro seed q hq
    match q with
    | [] => exact List.Perm.refl _
    | x :: xs =>
      have hpos : seed % (x :: xs).length < (x :: xs).length :=
        Nat.mod_lt _ (by simp)
      have hstep : rssAux (n + 1) seed (x :: xs)
          = (x :: xs).getD (seed % (x :: xs).length) 0
            :: rssAux n (lcg seed) (removeAt (seed % (x :: xs).length) (x :: xs)) := rfl
      have hlen : (removeAt (seed % (x :: xs).length) (x :: xs)).length ≤ n := by
        rw [removeAt_length _ _ hpos]
        simp only [List.length_cons] at hq ⊢
        omega
      rw [hstep]
      exact ((ih _ _ hlen).cons _).trans (removeAt_perm _ _ hpos).symm

theorem nstepAux_perm : ∀ (fuel n head : Nat) (dir : Direction) (q : List Nat),
    q.length ≤ fuel → 0 < n → List.Perm (nstepAux fuel n head dir q) q := by
  intro fuel
  induction fuel with
  | zero =>
    intro n head dir q hq hn
    have : q = [] := List.length_eq_zero.mp (Nat.le_zero.mp hq)
    rw [this]
    exact List.Perm.refl _
  | succ f ih =>
    intro n head dir q hq hn
    match q with
    | [] => exact List.Perm.refl _
    | x :: xs =>
      have hstep : nstepAux (f + 1) n head dir (x :: xs)
          = scan head dir ((x :: xs).take n)
            ++ nstepAux f n ((scan head dir ((x :: xs).take n)).getLast?.getD head)
                dir ((x :: xs).drop n) := rfl
      have hlen : ((x :: xs).drop n).length ≤ f := by
        rw [List.length_drop]
        simp only [List.length_cons] at hq ⊢
        omega
      rw [hstep]
      have happ := (scan_perm head dir ((x :: xs).take n)).append
        (ih n ((scan head dir ((x :: xs).take n)).getLast?.getD head) dir
          ((x :: xs).drop n) hlen hn)
      refine happ.trans ?_
      rw [List.take_append_drop]

theorem fscan_perm (head : Nat) (dir : Direction) (q : List Nat) :
    List.Perm (fscan head dir q) q := by
  unfold fscan
  refine ((scan_perm _ _ _).append (scan_perm _ _ _)).trans ?_
  rw [List.take_append_drop]

/-- C1: for every head position, direction, seed, positive batch size and
request queue, the service sequence any of the ten policies returns is a
permutation of the queue: the same multiset with duplicates preserved,
hence the same length. -/
theorem policies_perm (p : Policy) (head : Nat) (dir : Direction)
    (seed batchSize : Nat) (q : List Nat) (hb : 0 < batchSize) :
    List.Perm (runPolicy p head dir seed batchSize q) q := by
  cases p with
  | FCFS => exact List.Perm.refl q
  | SSTF => exact sstfAux_perm _ _ _ (Nat.le_refl _)
  | SCAN => exact scan_perm head dir q
  | CSCAN => exact cscan_perm head dir q
  | LOOK => exact scan_perm head dir q
  | CLOOK => exact cscan_perm head dir q
  | RSS => exact rssAux_perm _ _ _ (Nat.le_refl _)
  | LIFO => exact List.reverse_perm q
  | NSTEP => exact nstepAux_perm _ _ _ _ _ (Nat.le_refl _) hb
  | FSCAN => exact fscan_perm head dir q

/-- C1 witness: the N-step-SCAN policy at batch size 2 on a concrete queue. -/
theorem policies_perm_witness :
    List.Perm (runPolicy Policy.NSTEP 50 Direction.Increasing 7 2 [82, 170, 43])
      [82, 170, 43] :=
  policies_perm Policy.NSTEP 50 Direction.Increasing 7 2 [82, 170, 43] (by decide)


/-! ## Seek metrics (C5) and FCFS (C6) -/

theorem foldl_dist_acc (seq : List Nat) : ∀ (a pos : Nat),
    (seq.foldl (fun acc t => (acc.1 + dist acc.2 t, t)) (a, pos)).1
      = a + (((pos :: seq).zip seq).map fun s => dist s.1 s.2).sum := by
  induction seq with
  | nil => intro a pos; simp
  | cons t ts ih =>
    intro a pos
    rw [List.foldl_cons, List.zip_cons_cons]
    rw [ih (a + dist pos t) t]
    simp only [List.map_cons, List.sum_cons]
    omega

/-- C5: `totalSeekTime` is the sum of `|to − from|` over the SeekStep trace
built from `[headPosition] ++ ServiceSequence`; `averageSeekTime` is that
sum divided by the request count, `0` for an empty queue; `throughput` is
the request count divided by that sum, `0` when the sum is `0`. -/
theorem metrics_formulas (head : Nat) (seq : List Nat) :
    totalSeekTime head seq = ((seekSteps head seq).map fun s => dist s.1 s.2).sum
    ∧ averageSeekTime head seq
        = (if seq.length = 0 then (0 : ℚ)
           else ((((seekSteps head seq).map fun s => dist s.1 s.2).sum : ℚ)
             / (seq.length : ℚ)))
    ∧ throughput head seq
        = (if ((seekSteps head seq).map fun s => dist s.1 s.2).sum = 0 then (0 : ℚ)
           else ((seq.length : ℚ)
             / ((((seekSteps head seq).map fun s => dist s.1 s.2).sum : ℚ)))) := by
  have key : totalSeekTime head seq
      = ((seekSteps head seq).map fun s => dist s.1 s.2).sum := by
    unfold totalSeekTime seekSteps
    rw [foldl_dist_acc seq 0 head]
    omega
  refine ⟨key, ?_, ?_⟩
  · unfold averageSeekTime
    rw [key]
  · unfold throughput
    rw [key]

/-- C6: FCFS returns the request queue verbatim; on the spec's scenario
(head 50, requests 82,170,43,140,24,16,190) it yields that same sequence
with total seek time 642. -/
theorem fcfs_verbatim :
    (∀ q : List Nat, fcfs q = q)
    ∧ fcfs [82, 170, 43, 140, 24, 16, 190] = [82, 170, 43, 140, 24, 16, 190]
    ∧ totalSeekTime 50 (fcfs [82, 170, 43, 140, 24, 16, 190]) = 642 :=
  ⟨fun _ => rfl, rfl, by decide⟩


/-! ## SSTF greed (C7) -/

theorem sstfPick_min (head : Nat) : ∀ (xs : List Nat) (x : Nat), ∀ r ∈ x :: xs,
    dist (sstfPick head x xs) head < dist r head
    ∨ (dist (sstfPick head x xs) head = dist r head ∧ sstfPick head x xs ≤ r) := by
  intro xs
  induction xs with
  | nil =>
    intro x r hr
    rcases List.mem_cons.mp hr with h | h
    · subst h
      right
      exact ⟨rfl, Nat.le_refl _⟩
    · cases h
  | cons a xs ih =>
    intro x r hr
    have hunfold : sstfPick head x (a :: xs)
        = sstfPick head
            (if dist a head < dist x head ∨ (dist a head = dist x head ∧ a < x)
             then a else x) xs := rfl
    by_cases c : dist a head < dist x head ∨ (dist a head = dist x head ∧ a < x)
    · rw [hunfold, if_pos c]
      have hpa := ih a a (List.mem_cons_self a xs)
      rcases List.mem_cons.mp hr with rfl | hr'
      · omega
      · exact ih a r hr'
    · rw [hunfold, if_neg c]
      push_neg at c
      rcases List.mem_cons.mp hr with rfl | hr'
      · exact ih _ _ (List.mem_cons_self _ xs)
      · rcases List.mem_cons.mp hr' with rfl | hr''
        · have hpx := ih x x (List.mem_cons_self x xs)
          omega
        · exact ih x r (List.mem_cons_of_mem x hr'')

theorem sstf_cons_eq (head x : Nat) (xs : List Nat) :
    sstf head (x :: xs)
      = sstfPick head x xs
        :: sstf (sstfPick head x xs) ((x :: xs).erase (sstfPick head x xs)) := by
  unfold sstf
  have hlen : ((x :: xs).erase (sstfPick head x xs)).length = xs.length := by
    rw [List.length_erase_of_mem (sstfPick_mem head x xs)]
    simp
  rw [hlen]
  rfl

/-- C7: SSTF picks, at every step, the remaining request with minimum
distance from the current position, ties resolved to the lower track
number, and continues from the chosen track; on the spec's scenario
(head 50, requests 82,170,43,140,24,16,190) it yields
43,24,16,82,140,170,190 with total seek time 208. -/
theorem sstf_greedy :
    (∀ (head x : Nat) (xs : List Nat), sstfPick head x xs ∈ x :: xs
      ∧ ∀ r ∈ x :: xs,
          dist (sstfPick head x xs) head < dist r head
          ∨ (dist (sstfPick head x xs) head = dist r head ∧ sstfPick head x xs ≤ r))
    ∧ (∀ (head x : Nat) (xs : List Nat),
        sstf head (x :: xs)
          = sstfPick head x xs
            :: sstf (sstfPick head x xs) ((x :: xs).erase (sstfPick head x xs)))
    ∧ sstf 50 [82, 170, 43, 140, 24, 16, 190] = [43, 24, 16, 82, 140, 170, 190]
    ∧ totalSeekTime 50 (sstf 50 [82, 170, 43, 140, 24, 16, 190]) = 208 :=
  ⟨fun head x xs => ⟨sstfPick_mem head x xs, sstfPick_min head xs x⟩,
   sstf_cons_eq, by decide, by decide⟩


/-! ## Direction honoring (C8) and the comparison engine (C9) -/

theorem mem_sortAsc {x : Nat} {l : List Nat} : x ∈ sortAsc l ↔ x ∈ l :=
  List.mem_insertionSort _

theorem mem_sortDesc {x : Nat} {l : List Nat} : x ∈ sortDesc l ↔ x ∈ l :=
  List.mem_insertionSort _

/-- C8: SCAN and C-SCAN honor the direction: with `Increasing` the service
sequence is a front part of requests at or above the head followed by a
back part of requests strictly below it (the C-SCAN wrap jump sits between
the two parts), and symmetrically with `Decreasing`. -/
theorem scan_direction_honored (head : Nat) (q : List Nat) :
    (∃ l1 l2, scan head Direction.Increasing q = l1 ++ l2
      ∧ (∀ x ∈ l1, head ≤ x) ∧ ∀ x ∈ l2, x < head)
    ∧ (∃ l1 l2, scan head Direction.Decreasing q = l1 ++ l2
      ∧ (∀ x ∈ l1, x ≤ head) ∧ ∀ x ∈ l2, head < x)
    ∧ (∃ l1 l2, cscan head Direction.Increasing q = l1 ++ l2
      ∧ (∀ x ∈ l1, head ≤ x) ∧ ∀ x ∈ l2, x < head)
    ∧ (∃ l1 l2, cscan head Direction.Decreasing q = l1 ++ l2
      ∧ (∀ x ∈ l1, x ≤ head) ∧ ∀ x ∈ l2, head < x) := by
  refine ⟨⟨_, _, rfl, ?_, ?_⟩, ⟨_, _, rfl, ?_, ?_⟩, ⟨_, _, rfl, ?_, ?_⟩, ⟨_, _, rfl, ?_, ?_⟩⟩
  all_goals
    intro x hx
    first
      | (rw [mem_sortAsc] at hx
         have hp := (List.mem_filter.mp hx).2
         simpa using hp)
      | (rw [mem_sortDesc] at hx
         have hp := (List.mem_filter.mp hx).2
         simpa using hp)

theorem selectBest_spec : ∀ (l : List (Policy × Nat)) (b : Policy × Nat),
    ∃ l1 l2, b :: l = l1 ++ selectBest b l :: l2
      ∧ (∀ e ∈ l1, (selectBest b l).2 < e.2)
      ∧ ∀ e ∈ b :: l, (selectBest b l).2 ≤ e.2 := by
  intro l
  induction l with
  | nil =>
    intro b
    refine ⟨[], [], rfl, ?_, ?_⟩
    · intro e he; cases he
    · intro e he
      rcases List.mem_cons.mp he with rfl | he'
      · exact Nat.le_refl _
      · cases he'
  | cons e rest ih =>
    intro b
    have hstep : selectBest b (e :: rest) = selectBest (if e.2 < b.2 then e else b) rest := rfl
    by_cases c : e.2 < b.2
    · rw [hstep, if_pos c] at *
      obtain ⟨l1, l2, hdec, hstrict, hle⟩ := ih e
      refine ⟨b :: l1, l2, by rw [List.cons_append, ← hdec], ?_, ?_⟩
      · intro y hy
        rcases List.mem_cons.mp hy with rfl | hy'
        · have := hle e (List.mem_cons_self e rest)
          omega
        · exact hstrict y hy'
      · intro y hy
        rcases List.mem_cons.mp hy with rfl | hy'
        · have := hle e (List.mem_cons_self e rest)
          omega
        · exact hle y hy'
    · rw [hstep, if_neg c] at *
      obtain ⟨l1, l2, hdec, hstrict, hle⟩ := ih b
      match l1, hdec, hstrict with
      | [], hdec, hstrict =>
        rw [List.nil_append] at hdec
        injection hdec with hb htail
        refine ⟨[], e :: rest, ?_, ?_, ?_⟩
        · rw [List.nil_append, ← hb]
        · intro y hy; cases hy
        · intro y hy
          rcases List.mem_cons.mp hy with rfl | hy'
          · rw [← hb]
          · rcases List.mem_cons.mp hy' with rfl | hy''
            · rw [← hb]; omega
            · exact hle y (List.mem_cons_of_mem b hy'')
      | a :: l1, hdec, hstrict =>
        rw [List.cons_append] at hdec
        injection hdec with hb htail
        subst hb
        refine ⟨b :: e :: l1, l2, ?_, ?_, ?_⟩
        · rw [List.cons_append, List.cons_append, ← htail]
        · intro y hy
          rcases List.mem_cons.mp hy with rfl | hy'
          · exact hstrict y (List.mem_cons_self y l1)
          · rcases List.mem_cons.mp hy' with rfl | hy''
            · have := hstrict b (List.mem_cons_self b l1)
              omega
            · exact hstrict y (List.mem_cons_of_mem b hy'')
        · intro y hy
          rcases List.mem_cons.mp hy with rfl | hy'
          · exact hle y (List.mem_cons_self y rest)
          · rcases List.mem_cons.mp hy' with rfl | hy''
            · have := hle b (List.mem_cons_self b rest)
              omega
            · exact hle y (List.mem_cons_of_mem b hy'')

/-- C9: the winning entry of every comparison run has a total seek time
less than or equal to every evaluated policy's, and it is the first entry
attaining that minimum in the fixed declared policy ordering. -/
theorem bestPolicy_minimal (head : Nat) (dir : Direction) (seed batchSize : Nat)
    (q : List Nat) :
    bestPolicy head dir seed batchSize q = (bestEntry head dir seed batchSize q).1
    ∧ (∃ l1 l2, comparison head dir seed batchSize q
          = l1 ++ bestEntry head dir seed batchSize q :: l2
        ∧ ∀ e ∈ l1, (bestEntry head dir seed batchSize q).2 < e.2)
    ∧ ∀ e ∈ comparison head dir seed batchSize q,
        (bestEntry head dir seed batchSize q).2 ≤ e.2 := by
  cases hc : comparison head dir seed batchSize q with
  | nil => exact absurd hc (by simp [comparison, policyOrder])
  | cons e rest =>
    have hbe : bestEntry head dir seed batchSize q = selectBest e rest := by
      unfold bestEntry
      rw [hc]
    obtain ⟨l1, l2, hdec, hstrict, hle⟩ := selectBest_spec rest e
    refine ⟨rfl, ⟨l1, l2, ?_, ?_⟩, ?_⟩
    · rw [hbe]
      exact hdec
    · intro y hy
      rw [hbe]
      exact hstrict y hy
    · intro y hy
      rw [hbe]
      exact hle y hy


/-! ## Validation-layer theorems (C2, C3, C4, C10) -/

theorem badRequest_eq_false (d : Int) (r : Option Int) :
    badRequest d r = false ↔ ∃ v, r = some v ∧ 0 ≤ v ∧ v < d := by
  cases r with
  | none => simp [badRequest]
  | some v =>
    simp only [badRequest, Bool.or_eq_false_iff, decide_eq_false_iff_not,
      Option.some.injEq]
    constructor
    · rintro ⟨h0, h1⟩; exact ⟨v, rfl, by omega, by omega⟩
    · rintro ⟨v', hv, h0, h1⟩; subst hv; omega

theorem reqCheck_false_iff (d : Int) (qs : List Char) :
    ((splitComma qs).map (fun t => parseIntJS (trimChars t))).any (badRequest d) = false ↔
      ∀ t ∈ splitComma qs, ∃ v, parseIntJS (trimChars t) = some v ∧ 0 ≤ v ∧ v < d := by
  rw [List.any_eq_false]
  constructor
  · intro hall t ht
    have h := hall _ (List.mem_map_of_mem _ ht)
    rw [← badRequest_eq_false d]
    simpa using h
  · intro hall x hx
    obtain ⟨t, ht, rfl⟩ := List.mem_map.mp hx
    have h := hall t ht
    rw [← badRequest_eq_false d] at h
    simpa using h


/-- C2 (amended): validation succeeds exactly when the `parseInt`-parsed
disk size is positive, the parsed head position is in `[0, size)` and
every parsed request token is in `[0, size)`; `parseInt` truncates a
numeral such as `"2.5"` to its leading integer part, so such a field is
accepted whenever that part is in range. -/
theorem validate_ok_iff (ds hs qs : List Char) :
    validateInputs ds hs qs = ValidationResult.ok ↔ validSpec ds hs qs := by
  unfold validateInputs validSpec intOk
  cases hd : parseIntJS ds with
  | none => simp
  | some d =>
    by_cases h1 : d ≤ 0
    · simp only [if_pos h1]
      constructor
      · intro h; cases h
      · rintro ⟨d', hd', hpos, _⟩
        injection hd' with he
        omega
    · simp only [if_neg h1]
      cases hh : parseIntJS hs with
      | none => simp
      | some h =>
        by_cases h2 : (h < 0 || d ≤ h) = true
        · simp only [if_pos h2]
          constructor
          · intro hc; cases hc
          · rintro ⟨d', hd', hpos, ⟨v, hv, h0, hlt⟩, _⟩
            injection hd' with he
            injection hv with hv
            subst he; subst hv
            simp only [Bool.or_eq_true, decide_eq_true_eq] at h2
            omega
        · simp only [if_neg h2]
          by_cases h3 : ((splitComma qs).map (fun t => parseIntJS (trimChars t))).any (badRequest d) = true
          · simp only [if_pos h3]
            constructor
            · intro hc; cases hc
            · rintro ⟨d', hd', hpos, _, hreq⟩
              injection hd' with he
              subst he
              have hfalse := (reqCheck_false_iff d qs).mpr hreq
              rw [hfalse] at h3
              cases h3
          · simp only [if_neg h3]
            rw [Bool.not_eq_true] at h3
            simp only [Bool.or_eq_true, decide_eq_true_eq, not_or] at h2
            constructor
            · intro _
              exact ⟨d, rfl, by omega, ⟨h, rfl, by omega, by omega⟩,
                (reqCheck_false_iff d qs).mp h3⟩
            · intro _; trivial

/-- C3 (amended): when an input violates several validation constraints,
`validateInputs` reports only the first violated constraint in its fixed
check order — disk size, then head position, then request values — not an
aggregation of all of them. -/
theorem validate_reports_first (ds hs qs : List Char) :
    (¬ diskOkSpec ds → validateInputs ds hs qs = ValidationResult.err "Invalid disk size")
    ∧ (diskOkSpec ds → ¬ headOkSpec ds hs →
        validateInputs ds hs qs = ValidationResult.err "Invalid head position")
    ∧ (diskOkSpec ds → headOkSpec ds hs → ¬ reqOkSpec ds qs →
        validateInputs ds hs qs = ValidationResult.err "Invalid request values")
    ∧ (diskOkSpec ds → headOkSpec ds hs → reqOkSpec ds qs →
        validateInputs ds hs qs = ValidationResult.ok) := by
  unfold validateInputs diskOkSpec headOkSpec reqOkSpec
  cases hd : parseIntJS ds with
  | none =>
    refine ⟨fun _ => by trivial, ?_, ?_, ?_⟩ <;> rintro ⟨d', hd', _⟩ <;> cases hd'
  | some d =>
    by_cases h1 : d ≤ 0
    · simp only [if_pos h1]
      refine ⟨fun _ => by trivial, ?_, ?_, ?_⟩ <;> rintro ⟨d', hd', hpos⟩ <;>
        injection hd' with he <;> omega
    · simp only [if_neg h1]
      have hdisk : ∃ d', some d = some d' ∧ 0 < d' := ⟨d, rfl, by omega⟩
      cases hh : parseIntJS hs with
      | none =>
        refine ⟨fun hc => absurd hdisk hc, fun _ _ => by trivial, ?_, ?_⟩ <;>
          intro _ hhead <;> obtain ⟨v, hv, _⟩ := hhead d rfl <;> cases hv
      | some h =>
        by_cases h2 : (h < 0 || d ≤ h) = true
        · simp only [if_pos h2]
          simp only [Bool.or_eq_true, decide_eq_true_eq] at h2
          refine ⟨fun hc => absurd hdisk hc, fun _ _ => by trivial, ?_, ?_⟩ <;>
            intro _ hhead <;> obtain ⟨v, hv, h0, hlt⟩ := hhead d rfl <;>
            injection hv with hv <;> omega
        · simp only [if_neg h2]
          simp only [Bool.or_eq_true, decide_eq_true_eq, not_or] at h2
          have hhead : ∀ d', some d = some d' → ∃ v, some h = some v ∧ 0 ≤ v ∧ v < d' := by
            rintro d' hd'
            injection hd' with he
            subst he
            exact ⟨h, rfl, by omega, by omega⟩
          by_cases h3 : ((splitComma qs).map (fun t => parseIntJS (trimChars t))).any (badRequest d) = true
          · simp only [if_pos h3]
            refine ⟨fun hc => absurd hdisk hc, fun _ hc => absurd hhead hc,
              fun _ _ _ => by trivial, fun _ _ hreq => ?_⟩
            have := (reqCheck_false_iff d qs).mpr (hreq d rfl)
            rw [this] at h3
            cases h3
          · simp only [if_neg h3]
            rw [Bool.not_eq_true] at h3
            refine ⟨fun hc => absurd hdisk hc, fun _ hc => absurd hhead hc,
              fun _ _ hc => ?_, fun _ _ _ => by trivial⟩
            refine absurd ?_ hc
            rintro d' hd'
            injection hd' with he
            subst he
            exact (reqCheck_false_iff d qs).mp h3


theorem validate_err_cases (ds hs qs : List Char) :
    validateInputs ds hs qs = ValidationResult.ok
    ∨ validateInputs ds hs qs = ValidationResult.err "Invalid disk size"
    ∨ validateInputs ds hs qs = ValidationResult.err "Invalid head position"
    ∨ validateInputs ds hs qs = ValidationResult.err "Invalid request values" := by
  unfold validateInputs
  cases parseIntJS ds with
  | none => simp
  | some d =>
    by_cases h1 : d ≤ 0
    · simp [h1]
    · simp only [if_neg h1]
      cases parseIntJS hs with
      | none => simp
      | some h =>
        by_cases h2 : (h < 0 || d ≤ h) = true
        · simp [h2]
        · simp only [if_neg h2]
          by_cases h3 : ((splitComma qs).map (fun t => parseIntJS (trimChars t))).any (badRequest d) = true
          · simp [h3]
          · simp [h3]

/-- C4 (amended): the browser layer performs no policy-name and no
direction check — whether `runSimulation` submits does not depend on the
chosen algorithm or direction, and `validateInputs` only ever fails with
the disk-size, head-position or request-value message; no `UnknownPolicy`
or `MissingDirection` failure exists in this layer. -/
theorem frontend_checks_only_inputs (ds hs qs a1 a2 : List Char)
    (d1 d2 : Option (List Char)) :
    runSimulationSubmits ds hs qs a1 d1 = runSimulationSubmits ds hs qs a2 d2
    ∧ (validateInputs ds hs qs = ValidationResult.ok
      ∨ validateInputs ds hs qs = ValidationResult.err "Invalid disk size"
      ∨ validateInputs ds hs qs = ValidationResult.err "Invalid head position"
      ∨ validateInputs ds hs qs = ValidationResult.err "Invalid request values") :=
  ⟨rfl, validate_err_cases ds hs qs⟩

/-- C10: with an empty request-queue text the single empty token parses to
`NaN`, so `validateInputs` returns `false` for every disk size and head
position, and no simulate request is submitted. -/
theorem empty_queue_rejected (ds hs alg : List Char) (dir : Option (List Char)) :
    isValid (validateInputs ds hs []) = false
    ∧ runSimulationSubmits ds hs [] alg dir = false := by
  have key : isValid (validateInputs ds hs []) = false := by
    unfold validateInputs
    cases parseIntJS ds with
    | none => rfl
    | some d =>
      by_cases h1 : d ≤ 0
      · simp [h1, isValid]
      · simp only [if_neg h1]
        cases parseIntJS hs with
        | none => rfl
        | some h =>
          by_cases h2 : (h < 0 || d ≤ h) = true
          · simp [h2, isValid]
          · simp only [if_neg h2]
            have hmap : (splitComma ([] : List Char)).map
                (fun t => parseIntJS (trimChars t)) = [none] := by decide
            rw [hmap]
            simp [badRequest, isValid]
  exact ⟨key, key⟩

/-- C2 counterexample: the head field `"2.5"` is not an integer, yet
validation succeeds — `parseInt` truncates it to `2`. -/
theorem head_two_point_five_accepted :
    validateInputs "200".toList "2.5".toList "50".toList = ValidationResult.ok := by
  decide

/-- C3 counterexample: with disk size 200, head `"500"` and request
`"999"` both the head and the request constraint are violated, yet the
failure reports only the head-position message. -/
theorem multi_violation_single_report :
    validateInputs "200".toList "500".toList "999".toList
        = ValidationResult.err "Invalid head position"
    ∧ parseIntJS (trimChars "999".toList) = some 999
    ∧ ¬ (999 : Int) < 200 := by
  refine ⟨by decide, by decide, by omega⟩

/-- C4 counterexample: a simulate request with an unsupported policy
name, or with the direction-dependent SCAN and no direction, is still
submitted — validation never fails for either. -/
theorem unknown_policy_still_submitted :
    runSimulationSubmits "200".toList "50".toList "82,170,43,140,24,16,190".toList
        "NOSUCH".toList none = true
    ∧ "NOSUCH".toList ∉ supportedPolicies
    ∧ runSimulationSubmits "200".toList "50".toList "82,170,43,140,24,16,190".toList
        "SCAN".toList none = true := by
  refine ⟨by decide, by decide, by decide⟩

end DiskSched
